import Mathlib

unseal Rat.add Rat.sub Rat.mul Rat.inv

/-!
Verification of the Desjardins statement converter's core extraction and
reconciliation logic (`bank-statement-converter.py`), shallowly embedded in
Lean 4.

Conventions of the embedding:
* Python `float` page coordinates and `Decimal` money amounts are modelled as
  exact rationals (`ℚ`); the claims under study are order- and
  arithmetic-level properties, not floating-point rounding properties.
* `PARAMS` (the active template configuration) is threaded explicitly as a
  `Params` value.
* Stateful methods become explicit state-passing functions; the Python objects
  mutated in place (`Row`, `Table._current_row`, `Section` containers) become
  immutable values returned by each step.
* `assert` failures and uncaught exceptions become `Option`/explicit error
  flags.
* Calendar dates are abstracted to an ordinal `ℕ`: the code under study only
  ever stores a given date unchanged in the places the claims touch.
-/

namespace BankStatement

/-- Template configuration: the Python `CREDIT_PARAMS` / `BANK_PARAMS`
dictionaries (`epsilonx`, `epsilony`, `char_width`, `char_height`,
`line_spacing`, `page_offset`, `dont_split`). -/
structure Params where
  epsilonx : ℚ
  epsilony : ℚ
  char_width : ℚ
  char_height : ℚ
  line_spacing : ℚ
  page_offset : ℚ
  dont_split : Bool
deriving DecidableEq

/-- The `CREDIT_PARAMS` constant of the source. -/
def CREDIT_PARAMS : Params :=
  { epsilonx := 1/100
    epsilony := 1
    char_width := 24/5
    char_height := 6288/1000
    line_spacing := 912/1000
    page_offset := 319118/1000
    dont_split := false }

/-- The `BANK_PARAMS` constant of the source. -/
def BANK_PARAMS : Params :=
  { epsilonx := 0
    epsilony := 2
    char_width := 24/5
    char_height := 8
    line_spacing := 4
    page_offset := 0
    dont_split := true }

/-- The `Rect` class: an axis-aligned box `(x1, x2, y1, y2)`. -/
structure Rect where
  x1 : ℚ
  x2 : ℚ
  y1 : ℚ
  y2 : ℚ
deriving DecidableEq

/-- `Rect.intersect_vert(x1, x2)`: `x1 < self.x2 and x2 > self.x1`. -/
def Rect.intersect_vert (r : Rect) (a b : ℚ) : Bool :=
  decide (a < r.x2 ∧ b > r.x1)

/-- A `Word`: a content string plus its bounding box.  The owning-page
back-reference is only relevant to `Statement.load`, which is modelled
separately below with an explicit page index. -/
structure Word where
  box : Rect
  content : String
deriving DecidableEq

/-- Floor of a rational, computed as floor division of numerator by
denominator; models Python `math.floor` applied to the exact quotient. -/
def ratFloor (q : ℚ) : ℤ :=
  Int.fdiv q.num q.den

/-- Python list/string slice `s[l:r]` for non-negative character indices
(empty when `r ≤ l`, clamped at the end of the string). -/
def pySlice (s : String) (l r : ℕ) : String :=
  ((s.toList.drop l).take (r - l)).asString

/-- `Word.substring(x1, x2)`: returns the full content when the template says
`dont_split`; otherwise clamps `[x1, x2]` to the word's box and converts the
offsets to character indices with `epsilonx` slack and floor division by
`char_width`.  The Python indices are non-negative here because the clamped
left edge is at least `box.x1` and `epsilonx ≥ 0` in both templates, so the
`Int.toNat` clamp is never exercised. -/
def Word.substring (w : Word) (ps : Params) (a b : ℚ) : String :=
  if ps.dont_split then w.content
  else
    let a := max a w.box.x1
    let b := min b w.box.x2
    let l := (ratFloor ((a - w.box.x1 + ps.epsilonx) / ps.char_width)).toNat
    let r := (ratFloor ((b - w.box.x1 + ps.epsilonx) / ps.char_width)).toNat
    pySlice w.content l r

/-- Python `' '.join(items)`. -/
def joinSpace : List String → String
  | [] => ""
  | [s] => s
  | s :: rest => s ++ " " ++ joinSpace rest

/-- Python `s.strip()`: remove leading and trailing whitespace.  (Python
strips the full Unicode whitespace set; the ASCII set of `Char.isWhitespace`
covers every character the claims exercise.) -/
def pyStrip (s : String) : String :=
  (((s.toList.dropWhile Char.isWhitespace).reverse.dropWhile Char.isWhitespace).reverse).asString

/-- Python `s.startswith(p)`. -/
def strStartsWith (s p : String) : Bool :=
  p.toList.isPrefixOf s.toList

/-- Python `s[n:]`: drop the first `n` characters. -/
def pyDropChars (s : String) (n : ℕ) : String :=
  (s.toList.drop n).asString

/-- The `Line` class: the words of one visual line, in the order they were
grouped. -/
structure Line where
  words : List Word
deriving DecidableEq

/-- `Line.__init__`'s derived string: each word's content followed by a
space, concatenated in order. -/
def Line.string (l : Line) : String :=
  l.words.foldl (fun acc w => acc ++ w.content ++ " ") ""

/-- `Line.startswith(prefix)` on the derived string. -/
def Line.startswith (l : Line) (p : String) : Bool :=
  strStartsWith l.string p

/-- Stable insertion by `box.y1` (a new word goes before the first strictly
later word, after words with an equal top edge), matching the stability of
Python `sorted(key=lambda w: w.box.y1)`. -/
def insertByY (w : Word) : List Word → List Word
  | [] => [w]
  | x :: xs => if w.box.y1 ≤ x.box.y1 then w :: x :: xs else x :: insertByY w xs

/-- Stable sort of a page's words by vertical position, the
`sorted(self.words, key=lambda w: w.box.y1)` of `Page.lines`. -/
def sortByY : List Word → List Word
  | [] => []
  | w :: ws => insertByY w (sortByY ws)

/-- The grouping loop of `Page.lines`: `acc` is the in-progress group
(`words` in the Python), and a new group starts when the next word's top edge
is at least the last appended word's top edge plus `epsilony`. -/
def linesGo (eps : ℚ) : List Word → List Word → List (List Word)
  | acc, [] => if acc.isEmpty then [] else [acc]
  | acc, w :: ws =>
    match acc.getLast? with
    | none => linesGo eps [w] ws
    | some lw =>
      if lw.box.y1 + eps ≤ w.box.y1 then acc :: linesGo eps [w] ws
      else linesGo eps (acc ++ [w]) ws

/-- `Page.lines()`: sort the page's words by top edge, group them by vertical
proximity, and wrap each group in a `Line`. -/
def pageLines (eps : ℚ) (ws : List Word) : List Line :=
  (linesGo eps [] (sortByY ws)).map Line.mk

/-- The `Column.LEFT` / `Column.RIGHT` / `Column.CENTER` alignment constants. -/
inductive Alignment
  | left
  | right
  | center
deriving DecidableEq

/-- The `Column` class: a geometric column specification. -/
structure Column where
  name : String
  position : ℚ
  alignment : Alignment
  max_width : ℚ
  optional : Bool
  multiline : Bool
  key : Bool
deriving DecidableEq

/-- The acceptance window `[left, right]` computed at the top of
`Column.parse` from the alignment rule. -/
def Column.window (c : Column) : ℚ × ℚ :=
  match c.alignment with
  | .left => (c.position, c.position + c.max_width)
  | .right => (c.position - c.max_width, c.position)
  | .center => (c.position - c.max_width / 2, c.position + c.max_width / 2)

/-- The words of the input that the loop of `Column.parse` appends a
contribution for, in input order: those whose box passes `intersect_vert`
against the window. -/
def Column.contrib (c : Column) (words : List Word) : List Word :=
  words.filter fun w => w.box.intersect_vert (c.window).1 (c.window).2

/-- `Column.parse(words)`: join with single spaces the `substring`
contributions of the words intersecting the acceptance window, in the order
the input list presents them. -/
def Column.parse (c : Column) (ps : Params) (words : List Word) : String :=
  joinSpace ((c.contrib words).map fun w => w.substring ps (c.window).1 (c.window).2)

/-- The `Row` class: the optional integer `key` plus the `_fields` dict,
modelled as an association list in insertion order. -/
structure Row where
  key : Option ℤ
  fields : List (String × String)
deriving DecidableEq

/-- `Row()`: no key, no fields. -/
def Row.empty : Row :=
  ⟨none, []⟩

/-- `name in row` (`Row.__contains__`). -/
def Row.containsField (r : Row) (n : String) : Bool :=
  r.fields.any fun p => p.1 = n

/-- Lookup of a field's value, when present. -/
def Row.get? (r : Row) (n : String) : Option String :=
  (r.fields.find? fun p => p.1 = n).map Prod.snd

/-- `Row.add_field(name, value)`: Python dict assignment — overwrite in place
when the name exists, append otherwise. -/
def Row.add_field (r : Row) (n v : String) : Row :=
  if r.containsField n then
    { r with fields := r.fields.map fun p => if p.1 = n then (n, v) else p }
  else
    { r with fields := r.fields ++ [(n, v)] }

/-- Python `int(s)`: strip surrounding whitespace, accept an optional sign
followed by decimal digits, raise (`none`) otherwise.  (Python's tolerance
for underscores between digits and non-ASCII digits is not modelled; no
claim touches it.) -/
def pyInt (s : String) : Option ℤ :=
  let digitsVal : List Char → Option ℕ := fun ds =>
    if ds ≠ [] ∧ ds.all Char.isDigit then
      some (ds.foldl (fun a c => a * 10 + (c.toNat - 48)) 0)
    else none
  match (pyStrip s).toList with
  | '+' :: ds => (digitsVal ds).map Int.ofNat
  | '-' :: ds => (digitsVal ds).map fun n => -(n : ℤ)
  | ds => (digitsVal ds).map Int.ofNat

/-- The outcome of one `Table.parse_line` call: the table's `_current_row`
after the call, the record returned (the completed `Row` handed to the
caller-supplied row class, whose construction is outside the table logic),
and whether the call raised (an unparseable key, propagated to the caller
and swallowed by `Section.parse_line`). -/
structure PLResult where
  state : Option Row
  emit : Option Row
  exn : Bool
deriving DecidableEq

/-- The column loop of `Table.parse_line`.  `keep` reproduces the Python
aliasing: when the call started from a stored partial row, that object *is*
`row`, so on an abort without a pending line break the stored state still
holds every mutation made so far; when the call started from a fresh `Row()`,
the abort leaves the stored state empty. -/
def parseLineGo (ps : Params) (words : List Word) (keep : Row → Option Row) :
    List Column → Row → Bool → PLResult
  | [], row, _ => ⟨none, some row, false⟩
  | c :: cs, row, plb =>
    if row.containsField c.name then
      parseLineGo ps words keep cs row plb
    else
      let v := c.parse ps words
      if v = "" ∧ c.optional = false then
        ⟨if plb then some row else keep row, none, false⟩
      else if v ≠ "" ∧ pyStrip v ≠ "" then
        if c.key then
          match pyInt v with
          | none => ⟨keep row, none, true⟩
          | some k => parseLineGo ps words keep cs { row.add_field c.name v with key := some k } c.multiline
        else
          parseLineGo ps words keep cs (row.add_field c.name v) c.multiline
      else
        parseLineGo ps words keep cs row plb

/-- `Table.parse_line(line)` over the table's column list: start from the
stored partial row if any (`self._current_row or Row()`), walk the columns,
and return the new stored state plus the completed row, if one was emitted. -/
def tableParseLine (cols : List Column) (ps : Params) (cur : Option Row) (words : List Word) :
    PLResult :=
  parseLineGo ps words (fun r => if cur.isSome then some r else none) cols (cur.getD Row.empty) false

/-- A `Value` registered on a section: a label and the name the parsed scalar
is stored under.  The `value_class` constructor applied to the stripped text
is a caller-supplied pure function; the model stores its argument string. -/
structure ValueCfg where
  label : String
  name : String
deriving DecidableEq

/-- A `Table` as registered on a section: its header trigger (`None` matches
every line) and its column list. -/
structure TableCfg where
  header : Option String
  cols : List Column
deriving DecidableEq

/-- A `Section`: its header string, its singleton values and its tables. -/
structure SectionCfg where
  header : String
  values : List ValueCfg
  tables : List TableCfg
deriving DecidableEq

/-- Python non-overlapping left-to-right removal of every occurrence of
`pat`, i.e. `s.replace(pat, '')`; character-list recursion with a fuel
argument equal to the scanned length (each step consumes at least one
character, so the fuel never runs out). -/
def removeAllAux (pat : List Char) : ℕ → List Char → List Char
  | _, [] => []
  | 0, s => s
  | fuel + 1, c :: cs =>
    if pat ≠ [] ∧ pat.isPrefixOf (c :: cs) then
      removeAllAux pat fuel (List.drop pat.length (c :: cs))
    else
      c :: removeAllAux pat fuel cs

/-- `s.replace(pat, '')`: remove every occurrence of `pat` from `s` (the
identity when `pat` is empty, as in Python with an empty replacement). -/
def pyRemoveAll (s pat : String) : String :=
  (removeAllAux pat.toList s.toList.length s.toList).asString

/-- The mutable containers of one `Section` across a parse.  The Python
`objects` container serves both as the dict of singleton values and as the
list of completed records; the model splits the two uses.  `currentTable`
is `_current_table` as an index into the section's table list, and
`rowStates` holds each table's own `_current_row` (one slot per table). -/
structure SectionState where
  objMap : List (String × String)
  rows : List Row
  currentTable : Option ℕ
  rowStates : List (Option Row)
deriving DecidableEq

/-- Python dict assignment `m[k] = v` on an association list. -/
def dictInsert (m : List (String × String)) (k v : String) : List (String × String) :=
  if m.any (fun p => p.1 = k) then
    m.map fun p => if p.1 = k then (k, v) else p
  else
    m ++ [(k, v)]

/-- The table-dispatch loop of `Section.parse_line`: every table whose header
is `None` or a prefix of the line becomes the current table and has its row
state reset (`begin_parsing`), the last match winning. -/
def selectTables (tables : List TableCfg) (line : Line) (st : SectionState) : SectionState :=
  tables.enum.foldl
    (fun s it =>
      match it.2.header with
      | none => { s with currentTable := some it.1, rowStates := s.rowStates.set it.1 none }
      | some h =>
        if line.startswith h then
          { s with currentTable := some it.1, rowStates := s.rowStates.set it.1 none }
        else s)
    st

/-- `Section.parse_line(line)`: first the singleton-value loop (on a label
match, parse the text with every occurrence of the label removed, store it
under the value's name and return); otherwise run table dispatch and feed the
line to the current table, swallowing any exception it raises and appending
the record it may return. -/
def sectionParseLine (cfg : SectionCfg) (ps : Params) (st : SectionState) (line : Line) :
    SectionState :=
  match cfg.values.find? (fun v => line.startswith v.label) with
  | some v => { st with objMap := dictInsert st.objMap v.name (pyRemoveAll line.string v.label) }
  | none =>
    let st1 := selectTables cfg.tables line st
    match st1.currentTable with
    | none => st1
    | some i =>
      match cfg.tables.get? i with
      | none => st1
      | some t =>
        let res := tableParseLine t.cols ps (st1.rowStates.getD i none) line.words
        let st2 := { st1 with rowStates := st1.rowStates.set i res.state }
        match res.emit with
        | some r => { st2 with rows := st2.rows ++ [r] }
        | none => st2

/-- One input line of `Statement.load`, after the regex match: a `<page>`
record, a `<word>` record with its four coordinates and raw content (already
`.strip()`ped by the match-group handling), or any other line. -/
inductive InLine
  | page (w h : ℚ)
  | word (xmin ymin xmax ymax : ℚ) (content : String)
  | other
deriving DecidableEq

/-- Whether an input line is a `<page>` record. -/
def InLine.isPage : InLine → Bool
  | .page _ _ => true
  | _ => false

/-- A loaded `Word` as `Statement.load` builds it: the `Rect(xmin, xmax,
ymin, ymax)` box, the normalised content, and the owning-page back-reference
as the page's 1-based index (the non-owning association of the design). -/
structure LWord where
  box : Rect
  content : String
  pageIndex : ℕ
deriving DecidableEq

/-- A loaded `Page`: 1-based index, dimensions, and its words in insertion
order. -/
structure PageM where
  index : ℕ
  width : ℚ
  height : ℚ
  words : List LWord
deriving DecidableEq

/-- One step of `Statement.load`'s loop.  `normalize` stands for the content
normalisation `html.unescape` applied by `Word.__init__` (a pure per-word
string function, irrelevant to the routing).  `current_page` is always the
most recently appended page, so a word record with no page yet is dropped and
otherwise lands on the last page. -/
def loadStep (normalize : String → String) (pages : List PageM) : InLine → List PageM
  | .page w h => pages ++ [⟨pages.length + 1, w, h, []⟩]
  | .word a b c d s =>
    match pages.getLast? with
    | none => pages
    | some p =>
      pages.dropLast ++ [{ p with words := p.words ++ [⟨⟨a, c, b, d⟩, normalize s, p.index⟩] }]
  | .other => pages

/-- `Statement.load(lines)`: fold the loop over the input lines, starting
with no pages. -/
def statementLoad (normalize : String → String) (ls : List InLine) : List PageM :=
  ls.foldl (loadStep normalize) []

/-- Round-half-to-even of a rational to an integer, the rounding Python's
`round` applies to an exact `Decimal` value. -/
def rndHalfEven (x : ℚ) : ℤ :=
  let f := ratFloor x
  let r := x - (f : ℚ)
  if r < 1/2 then f
  else if 1/2 < r then f + 1
  else if 2 ∣ f then f else f + 1

/-- `round(x, 2)` on exact decimal values: round half to even at two decimal
digits. -/
def round2 (x : ℚ) : ℚ :=
  (rndHalfEven (x * 100) : ℚ) / 100

/-- A record as the reconciliation loop sees it: its signed `amount` and, when
the object carries a `balance` attribute extracted from the document (the
`hasattr(transaction, "balance")` test), that reported balance.  The loop's
other per-record effects (reward, volume, skip marking) neither read nor
write the running balance, so the balance dynamics are exactly this
projection. -/
structure TxnRec where
  amount : ℚ
  reported : Option ℚ
deriving DecidableEq

/-- One step of the running balance: `balance = round(balance + transaction.amount, 2)`. -/
def applyAmount (b : ℚ) (t : TxnRec) : ℚ :=
  round2 (b + t.amount)

/-- The running balance after applying a whole record list in order. -/
def balanceAfter (init : ℚ) (ts : List TxnRec) : ℚ :=
  ts.foldl applyAmount init

/-- The reconciliation loop over `transactions.objects`: apply each record's
amount with rounding, and when the record carries a reported balance, fail
(`assert`) unless the computed running balance equals it.  `none` models the
`AssertionError` aborting the run; `some b` is the final running balance of a
successful pass. -/
def reconcile : ℚ → List TxnRec → Option ℚ
  | b, [] => some b
  | b, t :: ts =>
    let b' := applyAmount b t
    match t.reported with
    | some r => if b' = r then reconcile b' ts else none
    | none => reconcile b' ts

/-- Whether every reported balance in the list agrees with the running
balance computed up to and including its record. -/
def reportsOk (init : ℚ) (ts : List TxnRec) : Prop :=
  ∀ i (h : i < ts.length) r, (ts.get ⟨i, h⟩).reported = some r →
    r = balanceAfter init (ts.take (i + 1))

/-- A synthetic record appended after reconciliation
(`RewardSpendingTransaction` / `RewardAdjustmentTransaction`): the fields
their constructors set, plus the `balance` assigned right after
construction. -/
structure SynthRec where
  id : String
  date : ℕ
  description : String
  amount : ℚ
  reward : ℚ
  balance : ℚ
deriving DecidableEq

/-- `RewardSpendingTransaction(date, amount)` with the subsequent
`spending.balance = balance` assignment. -/
def RewardSpendingTransaction (d : ℕ) (amt bal : ℚ) : SynthRec :=
  ⟨"888", d, "Crédit Bonidollars", 0, amt, bal⟩

/-- `RewardAdjustmentTransaction(date, amount)` with the subsequent
`adjustment.balance = balance` assignment. -/
def RewardAdjustmentTransaction (d : ℕ) (amt bal : ℚ) : SynthRec :=
  ⟨"999", d, "Ajustement Bonidollars", 0, amt, bal⟩

/-- The synthetic-record emission after the reconciliation loop (source lines
728–743), for a run whose reward summary was parsed (so `received_reward`,
`spent_reward` and `adjustment_reward` are bound): a spending record when the
document's spent total differs from the summed reward spendings, then an
adjustment record when the document's own adjustment figure plus the
received-minus-summed rounding residue is non-zero (Python `Decimal`
truthiness). -/
def emitSynthetics (stmtDate : ℕ) (bal spentReward totalSpent received totalReceived docAdj : ℚ) :
    List SynthRec :=
  let spendingRecs :=
    if spentReward ≠ totalSpent then
      [RewardSpendingTransaction stmtDate (spentReward - totalSpent) bal]
    else []
  let rounding := received - totalReceived
  let adj := docAdj + rounding
  let adjustmentRecs :=
    if adj ≠ 0 then [RewardAdjustmentTransaction stmtDate adj bal] else []
  spendingRecs ++ adjustmentRecs

/-! ## Concrete instances

Small concrete columns, words and lines used to evaluate the extraction
functions at specific inputs.  Geometry is chosen so that each word
intersects exactly the intended column window. -/

/-- A non-optional LEFT column named `c` spanning `[0, 100]`. -/
def colPerm : Column := ⟨"c", 0, .left, 100, false, false, false⟩

/-- A word with content `a` at horizontal span `[10, 20]`. -/
def wordPermA : Word := ⟨⟨10, 20, 0, 1⟩, "a"⟩

/-- A word with content `b` at horizontal span `[30, 40]`. -/
def wordPermB : Word := ⟨⟨30, 40, 0, 1⟩, "b"⟩

/-- A key column (CENTER at 10, window `[6, 14]`). -/
def keyColumn : Column := ⟨"id", 10, .center, 8, false, false, true⟩

/-- A multiline description column (LEFT at 20, window `[20, 40]`). -/
def descColumn : Column := ⟨"desc", 20, .left, 20, false, true, false⟩

/-- A required amount column (RIGHT at 60, window `[50, 60]`). -/
def amountColumn : Column := ⟨"amount", 60, .right, 10, false, false, false⟩

/-- A key table: key, multiline description, required amount. -/
def keyCols : List Column := [keyColumn, descColumn, amountColumn]

/-- First line fed to the key table: key `1` and description `hello`, no
amount. -/
def keyLine1 : List Word := [⟨⟨7, 9, 0, 1⟩, "1"⟩, ⟨⟨21, 30, 0, 1⟩, "hello"⟩]

/-- Second line fed to the key table: key `2` (differing from the stored
key `1`), description `world`, amount `5.00`. -/
def keyLine2 : List Word :=
  [⟨⟨7, 9, 0, 1⟩, "2"⟩, ⟨⟨21, 30, 0, 1⟩, "world"⟩, ⟨⟨51, 58, 0, 1⟩, "5.00"⟩]

/-- The partial row stored after the key table reads `keyLine1`. -/
def keyPartialRow : Row := ⟨some 1, [("id", "1"), ("desc", "hello")]⟩

/-- A required RIGHT column named `solde` (window `[50, 60]`). -/
def soldeColumn : Column := ⟨"solde", 60, .right, 10, false, false, false⟩

/-- A two-column table with a multiline description and a required balance. -/
def multilineCols : List Column := [descColumn, soldeColumn]

/-- A line holding only a description word with the given content. -/
def descLine1 (s : String) : List Word := [⟨⟨21, 30, 0, 1⟩, s⟩]

/-- A following line holding a description word with the given content and a
balance word `5.00`. -/
def descLine2 (s : String) : List Word :=
  [⟨⟨21, 30, 2, 3⟩, s⟩, ⟨⟨51, 58, 2, 3⟩, "5.00"⟩]

/-- A single non-optional LEFT column spanning `[0, 100]`. -/
def fullColumn : Column := ⟨"amt", 0, .left, 100, false, false, false⟩

/-- A one-unit-wide word (narrower than one character width), whose
`substring` contribution under `CREDIT_PARAMS` is empty. -/
def tinyWordA : Word := ⟨⟨0, 1, 0, 1⟩, "zz"⟩

/-- A second one-unit-wide word further right, contribution also empty. -/
def tinyWordB : Word := ⟨⟨2, 3, 0, 1⟩, "ww"⟩

/-- A word whose top edge sits at the given vertical position. -/
def wordAtY (y : ℚ) : Word := ⟨⟨0, 1, y, y + 1⟩, "w"⟩

/-- A singleton value labelled `L`, stored under the name `x`. -/
def labelValue : ValueCfg := ⟨"L", "x"⟩

/-- A section holding only the `L` value and no tables. -/
def sectionWithValue : SectionCfg := ⟨"SEC", [labelValue], []⟩

/-- A fresh section state. -/
def emptySectionState : SectionState := ⟨[], [], none, []⟩

/-- A line whose text is `"L L 5 "`: it starts with the label `L` and also
contains `L` as a later word. -/
def doubleLabelLine : Line :=
  ⟨[⟨⟨0, 1, 0, 1⟩, "L"⟩, ⟨⟨2, 3, 0, 1⟩, "L"⟩, ⟨⟨4, 5, 0, 1⟩, "5"⟩]⟩

/-! ## Helper lemmas -/

theorem Row.key_add_field (r : Row) (n v : String) : (r.add_field n v).key = r.key := by
  unfold Row.add_field
  split <;> rfl

theorem Row.add_field_of_not_contains (r : Row) (n v : String)
    (h : r.containsField n = false) :
    r.add_field n v = ⟨r.key, r.fields ++ [(n, v)]⟩ := by
  simp [Row.add_field, h]

theorem find?_append_of_some {α : Type} (p : α → Bool) (l1 l2 : List α) (x : α)
    (h : l1.find? p = some x) : (l1 ++ l2).find? p = some x := by
  rw [List.find?_append, h]
  rfl

theorem Row.get?_add_field_of_not_contains (r : Row) (n v m w : String)
    (hn : r.containsField n = false) (h : r.get? m = some w) :
    (r.add_field n v).get? m = some w := by
  rw [r.add_field_of_not_contains n v hn]
  unfold Row.get? at h ⊢
  simp only at h ⊢
  obtain ⟨p, hp, hpd⟩ := Option.map_eq_some'.mp h
  rw [find?_append_of_some _ _ _ _ hp]
  simp [hpd]

theorem Row.containsField_add_field_of (r : Row) (n v m : String)
    (hn : r.containsField n = false) (h : r.containsField m = true) :
    (r.add_field n v).containsField m = true := by
  rw [r.add_field_of_not_contains n v hn]
  unfold Row.containsField at h ⊢
  simp only [List.any_append, h]
  rfl

theorem Row.containsField_add_field_self (r : Row) (n v : String)
    (hn : r.containsField n = false) :
    (r.add_field n v).containsField n = true := by
  rw [r.add_field_of_not_contains n v hn]
  unfold Row.containsField
  simp [List.any_append]

theorem insertByY_perm (w : Word) (l : List Word) : (insertByY w l).Perm (w :: l) := by
  induction l with
  | nil => exact List.Perm.refl _
  | cons x xs ih =>
    by_cases h : w.box.y1 ≤ x.box.y1
    · simp [insertByY, h]
    · simp only [insertByY, h, if_false]
      exact (ih.cons x).trans (List.Perm.swap w x xs)

theorem sortByY_perm (ws : List Word) : (sortByY ws).Perm ws := by
  induction ws with
  | nil => exact List.Perm.refl _
  | cons w l ih => exact (insertByY_perm w (sortByY l)).trans (ih.cons w)

theorem linesGo_flatten (eps : ℚ) :
    ∀ (l acc : List Word), (linesGo eps acc l).flatten = acc ++ l := by
  intro l
  induction l with
  | nil =>
    intro acc
    cases acc <;> simp [linesGo]
  | cons w l ih =>
    intro acc
    cases hacc : acc.getLast? with
    | none =>
      have hnil : acc = [] := List.getLast?_eq_none_iff.mp hacc
      subst hnil
      simpa [linesGo] using ih [w]
    | some lw =>
      by_cases hsplit : lw.box.y1 + eps ≤ w.box.y1
      · simp [linesGo, hacc, hsplit, ih]
      · simp [linesGo, hacc, hsplit, ih]

theorem linesGo_one (eps : ℚ) :
    ∀ (l acc : List Word), acc ≠ [] →
      (∀ a ∈ acc ++ l, ∀ b ∈ acc ++ l, a.box.y1 - b.box.y1 < eps) →
      linesGo eps acc l = [acc ++ l] := by
  intro l
  induction l with
  | nil =>
    intro acc hne _
    cases acc with
    | nil => exact absurd rfl hne
    | cons a t => simp [linesGo]
  | cons w l ih =>
    intro acc hne hclose
    cases hacc : acc.getLast? with
    | none => exact absurd (List.getLast?_eq_none_iff.mp hacc) hne
    | some lw =>
      have hlw : lw ∈ acc := by
        obtain ⟨hne2, heq⟩ := List.mem_getLast?_eq_getLast (l := acc) (x := lw) (by simp [hacc])
        rw [heq]
        exact List.getLast_mem hne2
      have hwm : w ∈ acc ++ w :: l := by simp
      have hlt : w.box.y1 - lw.box.y1 < eps :=
        hclose w hwm lw (List.mem_append_left _ hlw)
      have hns : ¬ lw.box.y1 + eps ≤ w.box.y1 := by linarith
      have hstep : linesGo eps acc (w :: l) = linesGo eps (acc ++ [w]) l := by
        simp [linesGo, hacc, hns]
      rw [hstep]
      have happ : (acc ++ [w]) ++ l = acc ++ w :: l := by simp
      have := ih (acc ++ [w]) (by simp) (by rw [happ]; exact hclose)
      rw [happ] at this
      exact this

theorem parseLineGo_complete (ps : Params) (ws : List Word) (keep : Row → Option Row) :
    ∀ (cols : List Column) (row : Row) (plb : Bool) (out : Row),
      (parseLineGo ps ws keep cols row plb).emit = some out →
      (parseLineGo ps ws keep cols row plb).state = none ∧
        (∀ n, row.containsField n = true → out.containsField n = true) ∧
        ∀ c ∈ cols, c.optional = false →
          (out.containsField c.name = true ∨ c.parse ps ws ≠ "") := by
  intro cols
  induction cols with
  | nil =>
    intro row plb out hout
    obtain rfl : row = out := by simpa [parseLineGo] using hout
    exact ⟨rfl, fun n h => h, by simp⟩
  | cons c cs ih =>
    intro row plb out hout
    by_cases hc : row.containsField c.name = true
    · have hres :
          parseLineGo ps ws keep (c :: cs) row plb = parseLineGo ps ws keep cs row plb := by
        simp [parseLineGo, hc]
      rw [hres] at hout ⊢
      obtain ⟨hst, hmono, hcols⟩ := ih row plb out hout
      refine ⟨hst, hmono, fun d hd hopt => ?_⟩
      rcases List.mem_cons.mp hd with rfl | hd2
      · exact Or.inl (hmono _ hc)
      · exact hcols d hd2 hopt
    · have hcf : row.containsField c.name = false := by simpa using hc
      by_cases h1 : c.parse ps ws = "" ∧ c.optional = false
      · have hnone : (parseLineGo ps ws keep (c :: cs) row plb).emit = none := by
          simp [parseLineGo, hcf, h1]
        rw [hnone] at hout
        exact absurd hout (by simp)
      · by_cases h2 : c.parse ps ws ≠ "" ∧ pyStrip (c.parse ps ws) ≠ ""
        · cases hkc : c.key with
          | true =>
            cases hpi : pyInt (c.parse ps ws) with
            | none =>
              have hnone : (parseLineGo ps ws keep (c :: cs) row plb).emit = none := by
                simp [parseLineGo, hcf, h1, h2, hkc, hpi]
              rw [hnone] at hout
              exact absurd hout (by simp)
            | some k =>
              have hres :
                  parseLineGo ps ws keep (c :: cs) row plb =
                    parseLineGo ps ws keep cs
                      { row.add_field c.name (c.parse ps ws) with key := some k }
                      c.multiline := by
                simp [parseLineGo, hcf, h1, h2, hkc, hpi]
              rw [hres] at hout ⊢
              obtain ⟨hst, hmono, hcols⟩ := ih _ c.multiline out hout
              refine ⟨hst, fun n h =>
                hmono n (Row.containsField_add_field_of _ _ _ _ hcf h), fun d hd hopt => ?_⟩
              rcases List.mem_cons.mp hd with rfl | hd2
              · exact Or.inl (hmono _ (Row.containsField_add_field_self _ _ _ hcf))
              · exact hcols d hd2 hopt
          | false =>
            have hres :
                parseLineGo ps ws keep (c :: cs) row plb =
                  parseLineGo ps ws keep cs (row.add_field c.name (c.parse ps ws))
                    c.multiline := by
              simp [parseLineGo, hcf, h1, h2, hkc]
            rw [hres] at hout ⊢
            obtain ⟨hst, hmono, hcols⟩ := ih _ c.multiline out hout
            refine ⟨hst, fun n h =>
              hmono n (Row.containsField_add_field_of _ _ _ _ hcf h), fun d hd hopt => ?_⟩
            rcases List.mem_cons.mp hd with rfl | hd2
            · exact Or.inl (hmono _ (Row.containsField_add_field_self _ _ _ hcf))
            · exact hcols d hd2 hopt
        · have hres :
              parseLineGo ps ws keep (c :: cs) row plb = parseLineGo ps ws keep cs row plb := by
            simp [parseLineGo, hcf, h1, h2]
          rw [hres] at hout ⊢
          obtain ⟨hst, hmono, hcols⟩ := ih row plb out hout
          refine ⟨hst, hmono, fun d hd hopt => ?_⟩
          rcases List.mem_cons.mp hd with rfl | hd2
          · exact Or.inr fun hv => h1 ⟨hv, hopt⟩
          · exact hcols d hd2 hopt

theorem parseLineGo_preserves (ps : Params) (ws : List Word) (keep : Row → Option Row)
    (hkeep : ∀ x, keep x = some x) :
    ∀ (cols : List Column) (row : Row) (plb : Bool),
      (∀ c ∈ cols, c.key = true → row.containsField c.name = true) →
      (∀ out, (parseLineGo ps ws keep cols row plb).emit = some out →
          out.key = row.key ∧ ∀ n v, row.get? n = some v → out.get? n = some v) ∧
      (∀ st, (parseLineGo ps ws keep cols row plb).state = some st →
          st.key = row.key ∧ ∀ n v, row.get? n = some v → st.get? n = some v) := by
  intro cols
  induction cols with
  | nil =>
    intro row plb _
    refine ⟨fun out hout => ?_, fun st hst => ?_⟩
    · obtain rfl : row = out := by simpa [parseLineGo] using hout
      exact ⟨rfl, fun n v h => h⟩
    · simp [parseLineGo] at hst
  | cons c cs ih =>
    intro row plb hkeys
    by_cases hc : row.containsField c.name = true
    · have h := ih row plb fun d hd hk => hkeys d (List.mem_cons_of_mem _ hd) hk
      simpa [parseLineGo, hc] using h
    · have hcf : row.containsField c.name = false := by
        simpa using hc
      by_cases h1 : c.parse ps ws = "" ∧ c.optional = false
      · refine ⟨fun out hout => ?_, fun st hst => ?_⟩
        · simp [parseLineGo, hcf, h1] at hout
        · have : (if plb then some row else keep row) = some st := by
            simpa [parseLineGo, hcf, h1] using hst
          have hrow : row = st := by
            rcases plb with _ | _
            · rw [hkeep row] at this
              · exact Option.some.inj (by simpa using this)
            · exact Option.some.inj (by simpa using this)
          exact hrow ▸ ⟨rfl, fun n v h => h⟩
      · by_cases h2 : c.parse ps ws ≠ "" ∧ pyStrip (c.parse ps ws) ≠ ""
        · cases hkc : c.key with
          | true => exact absurd (hkeys c (List.mem_cons_self _ _) hkc) hc
          | false =>
            have hrow' := ih (row.add_field c.name (c.parse ps ws)) c.multiline
              fun d hd hk => Row.containsField_add_field_of _ _ _ _ hcf
                (hkeys d (List.mem_cons_of_mem _ hd) hk)
            have hres :
                parseLineGo ps ws keep (c :: cs) row plb =
                  parseLineGo ps ws keep cs (row.add_field c.name (c.parse ps ws)) c.multiline := by
              simp [parseLineGo, hcf, h1, h2, hkc]
            rw [hres]
            refine ⟨fun out hout => ?_, fun st hst => ?_⟩
            · obtain ⟨hk, hg⟩ := hrow'.1 out hout
              exact ⟨hk.trans (Row.key_add_field _ _ _), fun n v h =>
                hg n v (Row.get?_add_field_of_not_contains _ _ _ _ _ hcf h)⟩
            · obtain ⟨hk, hg⟩ := hrow'.2 st hst
              exact ⟨hk.trans (Row.key_add_field _ _ _), fun n v h =>
                hg n v (Row.get?_add_field_of_not_contains _ _ _ _ _ hcf h)⟩
        · have h := ih row plb fun d hd hk => hkeys d (List.mem_cons_of_mem _ hd) hk
          have hres :
              parseLineGo ps ws keep (c :: cs) row plb = parseLineGo ps ws keep cs row plb := by
            simp [parseLineGo, hcf, h1, h2]
          rw [hres]
          exact h

theorem balanceAfter_cons (init : ℚ) (t : TxnRec) (ts : List TxnRec) :
    balanceAfter init (t :: ts) = balanceAfter (applyAmount init t) ts := rfl

theorem reportsOk_nil (init : ℚ) : reportsOk init [] := by
  intro i h
  exact absurd h (by simp)

theorem reportsOk_cons (init : ℚ) (t : TxnRec) (ts : List TxnRec) :
    reportsOk init (t :: ts) ↔
      (∀ r, t.reported = some r → r = applyAmount init t) ∧
        reportsOk (applyAmount init t) ts := by
  constructor
  · intro h
    refine ⟨fun r hr => ?_, fun i hi r hr => ?_⟩
    · have h0 := h 0 (Nat.succ_pos _) r hr
      simpa [balanceAfter, applyAmount] using h0
    · have hs := h (i + 1) (Nat.succ_lt_succ hi) r hr
      simpa [balanceAfter] using hs
  · rintro ⟨h0, hs⟩ i hi r hr
    cases i with
    | zero =>
      have := h0 r hr
      simpa [balanceAfter, applyAmount] using this
    | succ j =>
      have hj : j < ts.length := Nat.lt_of_succ_lt_succ hi
      have := hs j hj r hr
      simpa [balanceAfter] using this

/-! ## C1: the reconciliation pass -/

/-- C1: the reconciliation loop applies records in order, adding each
record's signed amount to the running balance and rounding to two decimal
digits after each step; it succeeds (returning the final running balance)
exactly when every record carrying a reported balance agrees with the
computed running balance at that record, and aborts with an assertion
failure (`none`) exactly when some reported balance differs from the
computed one — even by one cent. -/
theorem c1_reconciliation_balance (init : ℚ) (ts : List TxnRec) :
    (reconcile init ts = some (balanceAfter init ts) ↔ reportsOk init ts) ∧
      (reconcile init ts = none ↔ ¬ reportsOk init ts) := by
  induction ts generalizing init with
  | nil =>
    constructor
    · simp [reconcile, balanceAfter, reportsOk_nil]
    · simp [reconcile, reportsOk_nil]
  | cons t ts ih =>
    cases ht : t.reported with
    | none =>
      have hrec : reconcile init (t :: ts) = reconcile (applyAmount init t) ts := by
        simp [reconcile, ht]
      have hok : reportsOk init (t :: ts) ↔ reportsOk (applyAmount init t) ts := by
        rw [reportsOk_cons]
        simp [ht]
      rw [hrec, balanceAfter_cons, hok]
      exact ih (applyAmount init t)
    | some r0 =>
      by_cases heq : applyAmount init t = r0
      · have hrec : reconcile init (t :: ts) = reconcile (applyAmount init t) ts := by
          simp [reconcile, ht, heq]
        have hok : reportsOk init (t :: ts) ↔ reportsOk (applyAmount init t) ts := by
          rw [reportsOk_cons]
          constructor
          · exact fun h => h.2
          · intro h
            refine ⟨fun r hr => ?_, h⟩
            rw [ht] at hr
            obtain rfl : r0 = r := Option.some.inj hr
            exact heq.symm
        rw [hrec, balanceAfter_cons, hok]
        exact ih (applyAmount init t)
      · have hrec : reconcile init (t :: ts) = none := by
          simp [reconcile, ht, heq]
        have hnok : ¬ reportsOk init (t :: ts) := by
          rw [reportsOk_cons]
          rintro ⟨h0, -⟩
          exact heq ((h0 r0 ht).symm)
        constructor
        · rw [hrec]
          simp only [iff_false_intro hnok, iff_false]
          intro h
          exact Option.noConfusion h
        · simp [hrec, hnok]

/-! ## C2: the synthetic adjustment record -/

/-- C2 counterexample: a run whose reported received total (`100.00`) equals
the sum of the individual records' rewards (difference zero) but whose
document carries a non-zero own adjustment figure (`5.00`) still appends one
synthetic adjustment record; the claim says none is appended when the
difference is zero. -/
theorem c2_counterexample :
    (100 : ℚ) - 100 = 0 ∧
      ((emitSynthetics 7 0 0 0 100 100 5).filter fun r => decide (r.id = "999")) =
        [RewardAdjustmentTransaction 7 5 0] := by
  decide

/-- C2 amended: exactly one synthetic adjustment record is appended if and
only if the document's own reported adjustment figure plus the residue
(reported received total minus the computed sum of record rewards) is
non-zero; its reward amount is that combined value — equal to the plain
residue only when the document's adjustment figure is zero — and it carries
the statement date and the final running balance. -/
theorem c2_adjustment_amended (d : ℕ) (bal s ts r tr da : ℚ) :
    ((emitSynthetics d bal s ts r tr da).filter fun x => decide (x.id = "999")) =
      if da + (r - tr) ≠ 0 then [RewardAdjustmentTransaction d (da + (r - tr)) bal] else [] := by
  by_cases h1 : s = ts <;> by_cases h2 : da + (r - tr) = 0 <;>
    simp [emitSynthetics, h1, h2, RewardSpendingTransaction, RewardAdjustmentTransaction]

/-! ## C3: order dependence of Column.parse -/

/-- C3 counterexample: two words both inside the column's window, presented
in the two possible orders: the inputs are permutations of each other, both
words' contributions are selected by horizontal position in both runs, yet
the strings returned differ — `Column.parse` is not permutation-invariant. -/
theorem c3_counterexample :
    ([wordPermB, wordPermA] : List Word).Perm [wordPermA, wordPermB] ∧
      Column.parse colPerm BANK_PARAMS [wordPermA, wordPermB] = "a b" ∧
      Column.parse colPerm BANK_PARAMS [wordPermB, wordPermA] = "b a" ∧
      ("a b" : String) ≠ "b a" := by
  decide

/-- C3 amended: the words contributing to a column are selected by
horizontal position alone — a permutation of the input permutes the selected
words — but their contributions are joined in input order, so the returned
string is determined by the ordered subsequence of window-intersecting
words, not by the word set: inputs with the same ordered contributing
subsequence parse identically. -/
theorem c3_parse_window_amended (c : Column) (ps : Params) (ws ws' : List Word)
    (h : ws.Perm ws') :
    (c.contrib ws).Perm (c.contrib ws') ∧
      (c.contrib ws = c.contrib ws' → c.parse ps ws = c.parse ps ws') := by
  refine ⟨h.filter _, fun he => ?_⟩
  unfold Column.parse
  rw [he]

/-- Witness for C3 amended at the two concrete word orders. -/
theorem c3_parse_window_amended_witness :
    (Column.contrib colPerm [wordPermA, wordPermB]).Perm
        (Column.contrib colPerm [wordPermB, wordPermA]) ∧
      (Column.contrib colPerm [wordPermA, wordPermB] =
          Column.contrib colPerm [wordPermB, wordPermA] →
        Column.parse colPerm BANK_PARAMS [wordPermA, wordPermB] =
          Column.parse colPerm BANK_PARAMS [wordPermB, wordPermA]) :=
  c3_parse_window_amended colPerm BANK_PARAMS [wordPermA, wordPermB] [wordPermB, wordPermA]
    (by decide)

/-! ## C5: a multiline description is not concatenated across lines -/

/-- C5 counterexample: a description supplied as `HELLO` on the first line
and `WORLD` on the second completes after the second line, but the record's
description is `HELLO` alone — the second line's description words are
skipped because the column is already filled — not the concatenation of
both contributions. -/
theorem c5_counterexample :
    (tableParseLine multilineCols BANK_PARAMS
          (tableParseLine multilineCols BANK_PARAMS none (descLine1 "HELLO")).state
          (descLine2 "WORLD")).emit =
        some ⟨none, [("desc", "HELLO"), ("solde", "5.00")]⟩ ∧
      Column.parse descColumn BANK_PARAMS (descLine2 "WORLD") = "WORLD" ∧
      Row.get? ⟨none, [("desc", "HELLO"), ("solde", "5.00")]⟩ "desc" = some "HELLO" ∧
      ("HELLO" : String) ≠ "HELLO WORLD" ∧ ("HELLO" : String) ≠ "HELLOWORLD" := by
  decide

/-- C5 amended: with a multiline description column filled on the first line
and the required balance column only resolvable on the second line, the row
completes only after the second line and exactly one record is emitted (the
first line leaves a stored partial row and emits nothing); but the record's
description is the first line's contribution alone — the second line's
description contribution is ignored, whatever it is. -/
theorem c5_multiline_amended (s1 s2 : String) (h1 : s1 ≠ "") (h2 : pyStrip s1 ≠ "") :
    tableParseLine multilineCols BANK_PARAMS none (descLine1 s1) =
        ⟨some ⟨none, [("desc", s1)]⟩, none, false⟩ ∧
      tableParseLine multilineCols BANK_PARAMS (some ⟨none, [("desc", s1)]⟩) (descLine2 s2) =
        ⟨none, some ⟨none, [("desc", s1), ("solde", "5.00")]⟩, false⟩ := by
  constructor
  · have hp1 : descColumn.parse BANK_PARAMS (descLine1 s1) = s1 := rfl
    have hp2 : soldeColumn.parse BANK_PARAMS (descLine1 s1) = "" := rfl
    simp only [tableParseLine, multilineCols]
    simp only [parseLineGo, hp1, hp2]
    simp [descColumn, soldeColumn, Row.empty, Row.containsField, Row.add_field, h1, h2]
  · have hp2 : soldeColumn.parse BANK_PARAMS (descLine2 s2) = "5.00" := rfl
    simp only [tableParseLine, multilineCols]
    simp only [parseLineGo, hp2]
    simp only [descColumn, soldeColumn, Row.containsField, Row.add_field]
    simp
    decide

/-- Witness for C5 amended at the concrete contents `HELLO` and `WORLD`. -/
theorem c5_multiline_amended_witness :
    tableParseLine multilineCols BANK_PARAMS none (descLine1 "HELLO") =
        ⟨some ⟨none, [("desc", "HELLO")]⟩, none, false⟩ ∧
      tableParseLine multilineCols BANK_PARAMS (some ⟨none, [("desc", "HELLO")]⟩)
          (descLine2 "WORLD") =
        ⟨none, some ⟨none, [("desc", "HELLO"), ("solde", "5.00")]⟩, false⟩ :=
  c5_multiline_amended "HELLO" "WORLD" (by decide) (by decide)

/-! ## C4: differing key values do not abandon the in-progress row -/

/-- C4 counterexample: a partial row stored with key `1` (and field
`hello`) is fed a line whose key column extracts `2`; instead of being
abandoned, the partial row absorbs the new line's amount and is emitted as a
record that merges the old fields with the new line's — still carrying key
`1`, the new key value never having been read. -/
theorem c4_counterexample :
    tableParseLine keyCols BANK_PARAMS none keyLine1 = ⟨some keyPartialRow, none, false⟩ ∧
      Column.parse keyColumn BANK_PARAMS keyLine2 = "2" ∧
      (2 : ℤ) ≠ 1 ∧
      tableParseLine keyCols BANK_PARAMS (some keyPartialRow) keyLine2 =
        ⟨none, some ⟨some 1, [("id", "1"), ("desc", "hello"), ("amount", "5.00")]⟩, false⟩ := by
  decide

/-- C4 amended: `Table.parse_line` never compares a line's key value against
the in-progress row's key.  Once every key column of the table is filled in
the stored partial row, any further line leaves the stored key unchanged and
preserves every stored field, both in the record that may be emitted and in
the partial row that may be kept: the old partial row is merged with fields
extracted on later lines, never abandoned over a key change. -/
theorem c4_key_merge_amended (cols : List Column) (ps : Params) (r : Row) (ws : List Word)
    (hkeys : ∀ c ∈ cols, c.key = true → r.containsField c.name = true) :
    (∀ out, (tableParseLine cols ps (some r) ws).emit = some out →
        out.key = r.key ∧ ∀ n v, r.get? n = some v → out.get? n = some v) ∧
      (∀ st, (tableParseLine cols ps (some r) ws).state = some st →
        st.key = r.key ∧ ∀ n v, r.get? n = some v → st.get? n = some v) :=
  parseLineGo_preserves ps ws _ (fun _ => rfl) cols r false hkeys

/-- Witness for C4 amended: the concrete key-table scenario, where the
second line completes a merged record. -/
theorem c4_key_merge_amended_witness :
    (∀ out, (tableParseLine keyCols BANK_PARAMS (some keyPartialRow) keyLine2).emit = some out →
        out.key = keyPartialRow.key ∧
          ∀ n v, keyPartialRow.get? n = some v → out.get? n = some v) ∧
      (∀ st, (tableParseLine keyCols BANK_PARAMS (some keyPartialRow) keyLine2).state = some st →
        st.key = keyPartialRow.key ∧
          ∀ n v, keyPartialRow.get? n = some v → st.get? n = some v) :=
  c4_key_merge_amended keyCols BANK_PARAMS keyPartialRow keyLine2 (by decide)

/-! ## C6: row completion -/

/-- C6 counterexample: two narrow words inside a non-optional column's
window each contribute an empty substring, so the column extracts the
whitespace-only string `" "` — truthy for the abort test, blank for the
storage test.  `Table.parse_line` therefore returns a record whose row has
no value at all for that non-optional column. -/
theorem c6_counterexample :
    Column.parse fullColumn CREDIT_PARAMS [tinyWordA, tinyWordB] = " " ∧
      fullColumn.optional = false ∧
      tableParseLine [fullColumn] CREDIT_PARAMS none [tinyWordA, tinyWordB] =
        ⟨none, some Row.empty, false⟩ ∧
      Row.containsField Row.empty "amt" = false := by
  decide

/-- C6 amended: whenever `Table.parse_line` returns a record, the stored row
state is reset to empty, and every non-optional column either already has a
stored value in the returned row or extracted a non-empty string from the
line — but a whitespace-only non-empty extraction satisfies the completion
test without storing any value for the column. -/
theorem c6_completion_amended (cols : List Column) (ps : Params) (cur : Option Row)
    (ws : List Word) (out : Row)
    (h : (tableParseLine cols ps cur ws).emit = some out) :
    (tableParseLine cols ps cur ws).state = none ∧
      ∀ c ∈ cols, c.optional = false →
        (out.containsField c.name = true ∨ c.parse ps ws ≠ "") := by
  obtain ⟨hst, -, hcols⟩ :=
    parseLineGo_complete ps ws (fun r => if cur.isSome then some r else none) cols
      (cur.getD Row.empty) false out h
  exact ⟨hst, hcols⟩

/-- Witness for C6 amended at the concrete whitespace-extraction table. -/
theorem c6_completion_amended_witness :
    (tableParseLine [fullColumn] CREDIT_PARAMS none [tinyWordA, tinyWordB]).state = none ∧
      ∀ c ∈ [fullColumn], c.optional = false →
        (Row.containsField Row.empty c.name = true ∨
          c.parse CREDIT_PARAMS [tinyWordA, tinyWordB] ≠ "") :=
  c6_completion_amended [fullColumn] CREDIT_PARAMS none [tinyWordA, tinyWordB] Row.empty
    (by decide)

/-! ## C7: line reconstruction partitions the words -/

/-- C7: the Lines produced by `Page.lines` partition the page's words —
their word lists concatenated are a permutation of the input word set, so
every word (counted with multiplicity) belongs to exactly one produced Line,
none dropped and none duplicated. -/
theorem c7_lines_partition (eps : ℚ) (ws : List Word) :
    ((pageLines eps ws).map Line.words).flatten.Perm ws := by
  unfold pageLines
  rw [List.map_map]
  have hid : Line.words ∘ Line.mk = id := rfl
  rw [hid, List.map_id, linesGo_flatten]
  simpa using sortByY_perm ws

/-! ## C8: the line-break threshold -/

/-- C8 counterexample: two words whose top edges differ by exactly the
vertical epsilon — each within the epsilon of the other, and neither
exceeding the other's top edge by *more* than the epsilon — are split into
two Lines, where the claim requires exactly one. -/
theorem c8_counterexample :
    (wordAtY 2).box.y1 - (wordAtY 0).box.y1 ≤ BANK_PARAMS.epsilony ∧
      (wordAtY 0).box.y1 - (wordAtY 2).box.y1 ≤ BANK_PARAMS.epsilony ∧
      ¬ ((wordAtY 2).box.y1 > (wordAtY 0).box.y1 + BANK_PARAMS.epsilony) ∧
      (pageLines BANK_PARAMS.epsilony [wordAtY 0, wordAtY 2]).length = 2 := by
  decide

/-- C8 amended: walking the words sorted by top edge, a new Line starts
exactly when the next word's top edge is at least (`≥`, not strictly more
than) the *previous word's* top edge plus the vertical epsilon;
consequently a non-empty word set whose top edges all lie strictly within
the epsilon of each other produces exactly one Line, and two ordered words
produce two Lines precisely at the `≥`-threshold. -/
theorem c8_line_break_amended :
    (∀ (eps : ℚ) (ws : List Word), ws ≠ [] →
        (∀ a ∈ ws, ∀ b ∈ ws, a.box.y1 - b.box.y1 < eps) →
        (pageLines eps ws).length = 1) ∧
      ∀ (eps : ℚ) (w1 w2 : Word), w1.box.y1 ≤ w2.box.y1 →
        (pageLines eps [w1, w2]).length =
          if w1.box.y1 + eps ≤ w2.box.y1 then 2 else 1 := by
  constructor
  · intro eps ws hne hclose
    obtain ⟨w, rest, hsort⟩ : ∃ w rest, sortByY ws = w :: rest := by
      cases hs : sortByY ws with
      | nil =>
        have := (sortByY_perm ws).length_eq
        rw [hs] at this
        exact absurd (List.length_eq_zero.mp this.symm) hne
      | cons w rest => exact ⟨w, rest, rfl⟩
    have hmem : ∀ a, a ∈ w :: rest → a ∈ ws := by
      intro a ha
      exact (sortByY_perm ws).mem_iff.mp (hsort ▸ ha)
    unfold pageLines
    rw [hsort]
    have hstep : linesGo eps [] (w :: rest) = linesGo eps [w] rest := by
      simp [linesGo]
    rw [hstep, linesGo_one eps rest [w] (by simp)
      (fun a ha b hb => hclose a (hmem a ha) b (hmem b hb))]
    rfl
  · intro eps w1 w2 h
    have hsort : sortByY [w1, w2] = [w1, w2] := by
      simp [sortByY, insertByY, h]
    unfold pageLines
    rw [hsort]
    by_cases hc : w1.box.y1 + eps ≤ w2.box.y1 <;>
      simp [linesGo, List.getLast?, hc]

/-! ## C9: singleton values take precedence, but strip every occurrence -/

/-- C9 counterexample: a line reading `L L 5 ` matched against the label
`L`: the stored text is the line with *every* occurrence of the label
removed (`"  5 "`), not the line with the label prefix stripped
(`" L 5 "`). -/
theorem c9_counterexample :
    doubleLabelLine.startswith "L" = true ∧
      (sectionParseLine sectionWithValue BANK_PARAMS emptySectionState doubleLabelLine).objMap =
        [("x", "  5 ")] ∧
      pyDropChars doubleLabelLine.string 1 = " L 5 " ∧
      ("  5 " : String) ≠ pyDropChars doubleLabelLine.string 1 := by
  decide

/-- C9 amended: when the line's text starts with a registered value label
(the first such value in registration order), `Section.parse_line` stores
the scalar parsed from the line's text with every occurrence of the label
removed — equal to prefix-stripping only when the label occurs once —
under the value's name, and returns with the section's records, current
table and table row states untouched (no table header matching or table
parsing happens on that line). -/
theorem c9_value_amended (cfg : SectionCfg) (ps : Params) (st : SectionState) (line : Line)
    (v : ValueCfg) (h : cfg.values.find? (fun u => line.startswith u.label) = some v) :
    sectionParseLine cfg ps st line =
      { st with objMap := dictInsert st.objMap v.name (pyRemoveAll line.string v.label) } := by
  unfold sectionParseLine
  rw [h]

/-- Witness for C9 amended on the concrete double-label line. -/
theorem c9_value_amended_witness :
    sectionParseLine sectionWithValue BANK_PARAMS emptySectionState doubleLabelLine =
      { emptySectionState with
          objMap :=
            dictInsert emptySectionState.objMap labelValue.name
              (pyRemoveAll doubleLabelLine.string labelValue.label) } :=
  c9_value_amended sectionWithValue BANK_PARAMS emptySectionState doubleLabelLine labelValue
    (by decide)

/-! ## C10: word routing in Statement.load -/

theorem loadStep_preserves_idx (normalize : String → String) (pages : List PageM)
    (h : ∀ p ∈ pages, ∀ w ∈ p.words, w.pageIndex = p.index) :
    ∀ l, ∀ p ∈ loadStep normalize pages l, ∀ w ∈ p.words, w.pageIndex = p.index := by
  intro l p hp w hw
  cases l with
  | page wd ht =>
    rcases List.mem_append.mp hp with hp1 | hp2
    · exact h p hp1 w hw
    · obtain rfl : p = (⟨pages.length + 1, wd, ht, []⟩ : PageM) := by simpa using hp2
      simp at hw
  | word a b c d s =>
    cases hacc : pages.getLast? with
    | none =>
      rw [loadStep, hacc] at hp
      exact h p hp w hw
    | some q =>
      rw [loadStep, hacc] at hp
      have hq : q ∈ pages := by
        obtain ⟨hne2, heq⟩ := List.mem_getLast?_eq_getLast (l := pages) (x := q) (by simp [hacc])
        rw [heq]
        exact List.getLast_mem hne2
      rcases List.mem_append.mp hp with hp1 | hp2
      · exact h p (List.mem_of_mem_dropLast hp1) w hw
      · obtain rfl :
            p = ({ q with words := q.words ++ [⟨⟨a, c, b, d⟩, normalize s, q.index⟩] } : PageM) := by
          simpa using hp2
        rcases List.mem_append.mp hw with hw1 | hw2
        · exact h q hq w hw1
        · obtain rfl : w = (⟨⟨a, c, b, d⟩, normalize s, q.index⟩ : LWord) := by simpa using hw2
          rfl
  | other => exact h p hp w hw

theorem loadAux_preserves_idx (normalize : String → String) :
    ∀ (ls : List InLine) (pages : List PageM),
      (∀ p ∈ pages, ∀ w ∈ p.words, w.pageIndex = p.index) →
      ∀ p ∈ ls.foldl (loadStep normalize) pages, ∀ w ∈ p.words, w.pageIndex = p.index := by
  intro ls
  induction ls with
  | nil => intro pages h; exact h
  | cons l t ih =>
    intro pages h
    exact ih (loadStep normalize pages l) (loadStep_preserves_idx normalize pages h l)

theorem map_idx_replace_last (pages : List PageM) (q pg : PageM)
    (hacc : pages.getLast? = some q) (hidx : pg.index = q.index) :
    (pages.dropLast ++ [pg]).map PageM.index = pages.map PageM.index ∧
      (pages.dropLast ++ [pg]).length = pages.length := by
  have hsplit : pages.dropLast ++ [q] = pages := by
    obtain ⟨hne2, heq⟩ := List.mem_getLast?_eq_getLast (l := pages) (x := q) (by simp [hacc])
    rw [heq]
    exact List.dropLast_append_getLast hne2
  constructor
  · conv_rhs => rw [← hsplit]
    simp [hidx]
  · conv_rhs => rw [← hsplit]
    simp

theorem loadStep_idx_range (normalize : String → String) (pages : List PageM)
    (h : pages.map PageM.index = List.range' 1 pages.length) :
    ∀ l, (loadStep normalize pages l).map PageM.index =
      List.range' 1 (loadStep normalize pages l).length := by
  intro l
  cases l with
  | page wd ht =>
    have hc : List.range' 1 (pages.length + 1) =
        List.range' 1 pages.length ++ [pages.length + 1] := by
      rw [@List.range'_concat 1 1 pages.length]
      simp [Nat.add_comm]
    simp [loadStep, h, hc]
  | word a b c d s =>
    cases hacc : pages.getLast? with
    | none => simp [loadStep, hacc, h]
    | some q =>
      obtain ⟨hmap, hlen⟩ :=
        map_idx_replace_last pages q
          ({ q with words := q.words ++ [(⟨⟨a, c, b, d⟩, normalize s, q.index⟩ : LWord)] })
          hacc rfl
      simp only [loadStep, hacc]
      rw [hmap, hlen, h]
  | other => simpa [loadStep] using h

theorem loadAux_idx_range (normalize : String → String) :
    ∀ (ls : List InLine) (pages : List PageM),
      pages.map PageM.index = List.range' 1 pages.length →
      (ls.foldl (loadStep normalize) pages).map PageM.index =
        List.range' 1 (ls.foldl (loadStep normalize) pages).length := by
  intro ls
  induction ls with
  | nil => intro pages h; exact h
  | cons l t ih =>
    intro pages h
    exact ih (loadStep normalize pages l) (loadStep_idx_range normalize pages h l)

theorem loadAux_no_page (normalize : String → String) :
    ∀ (pre : List InLine), (∀ l ∈ pre, l.isPage = false) →
      pre.foldl (loadStep normalize) [] = [] := by
  intro pre
  induction pre with
  | nil => intro _; rfl
  | cons l t ih =>
    intro h
    have hstep : loadStep normalize [] l = [] := by
      cases l with
      | page wd ht => exact absurd (h _ (List.mem_cons_self _ _)) (by simp [InLine.isPage])
      | word a b c d s => rfl
      | other => rfl
    have ht2 : ∀ x ∈ t, x.isPage = false := fun x hx => h x (List.mem_cons_of_mem _ hx)
    calc (l :: t).foldl (loadStep normalize) [] = t.foldl (loadStep normalize) (loadStep normalize [] l) := rfl
    _ = t.foldl (loadStep normalize) [] := by rw [hstep]
    _ = [] := ih ht2

/-- C10: in `Statement.load`, word records before the first page record are
silently discarded; every retained word is appended to the page introduced
by the most recent preceding page record (the last page so far), with its
page back-reference equal to that page's index; and page indices are the
consecutive 1-based positions of the pages, so each word's back-reference
identifies exactly one owning page. -/
theorem c10_load_routing (normalize : String → String) :
    (∀ pre rest, (∀ l ∈ pre, l.isPage = false) →
        statementLoad normalize (pre ++ rest) = statementLoad normalize rest) ∧
      (∀ ls, ∀ p ∈ statementLoad normalize ls, ∀ w ∈ p.words, w.pageIndex = p.index) ∧
      (∀ ls a b c d s,
          statementLoad normalize (ls ++ [InLine.word a b c d s]) =
            match (statementLoad normalize ls).getLast? with
            | none => statementLoad normalize ls
            | some p =>
              (statementLoad normalize ls).dropLast ++
                [{ p with words := p.words ++ [⟨⟨a, c, b, d⟩, normalize s, p.index⟩] }]) ∧
      ∀ ls, (statementLoad normalize ls).map PageM.index =
        List.range' 1 (statementLoad normalize ls).length := by
  refine ⟨fun pre rest h => ?_, fun ls => ?_, fun ls a b c d s => ?_, fun ls => ?_⟩
  · unfold statementLoad
    rw [List.foldl_append, loadAux_no_page normalize pre h]
  · exact loadAux_preserves_idx normalize ls [] (by simp)
  · unfold statementLoad
    rw [List.foldl_append]
    rfl
  · exact loadAux_idx_range normalize ls [] (by simp)

end BankStatement
